import Mathlib

/-!
Formal model of the t0-Simulator package (`simulator.go`).

The package simulates time-out budgeting: a `Simulator` owns a root
context deadline and a list of simulated processes; each process either
occupies a fixed number of milliseconds (`FunctionWithTimeout`) or derives
a child context from the parent via a weight and a priority flag
(`FunctionWithDynamiContext`), then occupies the derived allotment.

Modelling conventions:
- Real time is a virtual clock `now : Int` counted in nanoseconds; a
  context deadline (`Budget`) is an absolute instant in nanoseconds.
- Go's `int64` division in `getDeadline` truncates toward zero, so it is
  embedded as `Int.tdiv`.
- Go's `float64` weight is embedded as `ℚ`; the conversion
  `time.Duration(newTimeout)` truncates the value toward zero
  (`truncRat`), and multiplying by `time.Millisecond` scales by 10^6.
- `context.WithTimeout(parent, d)` yields a deadline `now + d` capped by
  the parent's deadline, embedded as `min parent.instant (now + d)`.
- `time.Sleep` with a negative or zero duration returns immediately,
  embedded as advancing the clock by `max d 0`.
- The `select` race in `Simulator.Run` between root-context expiry and
  the worker's completion signal is resolved by comparing the two
  instants; a `tieExpired` oracle decides the nondeterministic case in
  which both fire at the same instant.
-/

namespace T0Simulator

/-- A context deadline: the absolute instant (nanoseconds on the virtual
clock) after which the scope that owns it is out of time. -/
structure Budget where
  instant : Int
deriving DecidableEq, Repr

/-- Model of `getDeadline`: milliseconds remaining until the deadline,
`(deadline.UnixNano() - time.Now().UnixNano()) / 1e6` with Go's
truncating `int64` division. -/
def getDeadline (b : Budget) (now : Int) : Int :=
  (b.instant - now).tdiv 1000000

/-- Truncation of a rational toward zero, the semantics of Go's
`time.Duration(f)` conversion from `float64`. -/
def truncRat (q : ℚ) : Int :=
  if 0 ≤ q then ⌊q⌋ else -⌊-q⌋

/-- Model of `getNewContext`: compute the weighted share
`float64(timeout) * percentage` of the parent's remaining milliseconds;
if the share is below the 30 ms threshold and the step is priority,
escalate to the parent's full remaining time; then build a child context
whose deadline is `now` plus the (truncated) share in milliseconds,
capped by the parent's deadline as `context.WithTimeout` does. -/
def getNewContext (b : Budget) (now : Int) (percentage : ℚ) (isPriority : Bool) : Budget :=
  let timeout := getDeadline b now
  let timeoutThreshold : Int := 30
  let newTimeout : ℚ := (timeout : ℚ) * percentage
  let newTimeout2 : ℚ :=
    if newTimeout < (timeoutThreshold : ℚ) ∧ isPriority = true then (timeout : ℚ) else newTimeout
  ⟨min b.instant (now + truncRat newTimeout2 * 1000000)⟩

/-- Model of the embedded `Function` struct: a name and an executed flag. -/
structure Function where
  name : String
  isExecuted : Bool
deriving DecidableEq, Repr

/-- Model of `NewFunction`: a fresh function, executed flag unset. -/
def NewFunction (name : String) : Function :=
  { name := name, isExecuted := false }

/-- A registered process: either a `FunctionWithTimeout` (fixed literal
timeout) or a `FunctionWithDynamiContext` (weighted, with priority flag).
The embedded `Function` fields are inlined. -/
inductive Proc where
  | withTimeout (name : String) (timeout : Int) (isExecuted : Bool)
  | withDynamicContext (name : String) (weight : ℚ) (isPriority : Bool) (isExecuted : Bool)
deriving DecidableEq, Repr

/-- Name accessor (`String()` in the source). -/
def Proc.name : Proc → String
  | .withTimeout n _ _ => n
  | .withDynamicContext n _ _ _ => n

/-- Executed-flag accessor (`IsExecuted()` in the source). -/
def Proc.isExecuted : Proc → Bool
  | .withTimeout _ _ e => e
  | .withDynamicContext _ _ _ e => e

/-- Model of `Function.WithTimeout`: copies the receiver `Function` by
value into a fixed-timeout process. -/
def Function.WithTimeout (f : Function) (timeout : Int) : Proc :=
  .withTimeout f.name timeout f.isExecuted

/-- Model of `Function.WithDynamicContext`: copies the receiver
`Function` by value into a weighted process. -/
def Function.WithDynamicContext (f : Function) (weight : ℚ) (isPriority : Bool) : Proc :=
  .withDynamicContext f.name weight isPriority f.isExecuted

/-- One report row written with `rowFormat`: step name, the timeout value
printed, and the parent context's remaining milliseconds at that moment. -/
structure Row where
  name : String
  timeout : Int
  remaining : Int
deriving DecidableEq, Repr

/-- Result of running one process: its updated value, the advanced clock,
and the row it wrote. -/
structure StepResult where
  proc : Proc
  now : Int
  row : Row
deriving DecidableEq, Repr

/-- Model of the two `Run` methods. A fixed-timeout process sleeps its
literal timeout (milliseconds) without consulting the parent context,
marks itself executed, and reports the parent's remaining time after the
sleep. A weighted process derives a child context via `getNewContext`,
sleeps the child's remaining milliseconds (a negative or zero duration
sleeps not at all), marks itself executed, and reports likewise. -/
def runProc (p : Proc) (b : Budget) (now : Int) : StepResult :=
  match p with
  | .withTimeout name timeout _ =>
      let now2 := now + max (timeout * 1000000) 0
      { proc := .withTimeout name timeout true
        now := now2
        row := { name := name, timeout := timeout, remaining := getDeadline b now2 } }
  | .withDynamicContext name weight isPriority _ =>
      let child := getNewContext b now weight isPriority
      let timeout := getDeadline child now
      let now2 := now + max (timeout * 1000000) 0
      { proc := .withDynamicContext name weight isPriority true
        now := now2
        row := { name := name, timeout := timeout, remaining := getDeadline b now2 } }

/-- Final state of the worker goroutine: updated processes, the instant
at which it signals `done`, and the rows it wrote. -/
structure WorkerResult where
  procs : List Proc
  now : Int
  rows : List Row
deriving DecidableEq, Repr

/-- Model of the worker goroutine body: run the registered processes
strictly in order, each starting when the previous one returns. -/
def runWorker : List Proc → Budget → Int → WorkerResult
  | [], _, now => { procs := [], now := now, rows := [] }
  | p :: ps, b, now =>
      let r := runProc p b now
      let rest := runWorker ps b r.now
      { procs := r.proc :: rest.procs, now := rest.now, rows := r.row :: rest.rows }

/-- The process list as observed at instant `t` while the worker runs: a
process shows its post-run value if its run completed by `t`, and its
original value (flag untouched) if at `t` it is still in flight or has
not started. -/
def stepsAtInstant : List Proc → Budget → Int → Int → List Proc
  | [], _, _, _ => []
  | p :: ps, b, now, t =>
      let r := runProc p b now
      if r.now ≤ t then r.proc :: stepsAtInstant ps b r.now t
      else p :: ps

/-- Terminal outcome of a run: the root context expired first (with the
names of processes still unexecuted), or the worker finished first (with
the root budget's remaining milliseconds). -/
inductive Outcome where
  | expired (unexecutedNames : List String)
  | completed (timeLeft : Int)
deriving DecidableEq, Repr

/-- True when the outcome is the expiry branch. -/
def Outcome.isExpired : Outcome → Bool
  | .expired _ => true
  | .completed _ => false

/-- True when the outcome is the completion branch. -/
def Outcome.isCompleted : Outcome → Bool
  | .expired _ => false
  | .completed _ => true

/-- Model of the `Simulator` struct. -/
structure Simulator where
  name : String
  timeout : Int
  process : List Proc
deriving DecidableEq, Repr

/-- Model of `NewSimulator`: stores name and timeout, no process list. -/
def NewSimulator (name : String) (timeout : Int) : Simulator :=
  { name := name, timeout := timeout, process := [] }

/-- Model of `RegisterFunctions`: assigns the process list wholesale. -/
def Simulator.RegisterFunctions (s : Simulator) (ps : List Proc) : Simulator :=
  { s with process := ps }

/-- What a run produces: the rows the worker wrote, the terminal outcome,
and the process values as of the instant the race resolved. -/
structure RunResult where
  rows : List Row
  outcome : Outcome
  finalProcs : List Proc
deriving DecidableEq, Repr

/-- Model of `Simulator.Run`: create a root context expiring
`s.timeout` milliseconds from `now`, run the worker, and resolve the
`select` race between root-context expiry and the worker's `done`
signal: the branch whose instant is earlier wins; `tieExpired` decides
the nondeterministic simultaneous case. On expiry the unexecuted
processes are enumerated in registration order, reading the executed
flags as they stand at the instant the race resolved. -/
def Simulator.Run (s : Simulator) (now : Int) (tieExpired : Bool) : RunResult :=
  let rootBudget : Budget := ⟨now + s.timeout * 1000000⟩
  let worker := runWorker s.process rootBudget now
  if rootBudget.instant < worker.now ∨ (worker.now = rootBudget.instant ∧ tieExpired = true) then
    { rows := worker.rows
      outcome := .expired
        (((stepsAtInstant s.process rootBudget now rootBudget.instant).filter
            fun p => !p.isExecuted).map Proc.name)
      finalProcs := stepsAtInstant s.process rootBudget now rootBudget.instant }
  else
    { rows := worker.rows
      outcome := .completed (getDeadline rootBudget worker.now)
      finalProcs := worker.procs }


/-- A run configured with a 50 ms root timeout whose first step occupies
100 ms: the root context expires mid-first-step. -/
def raceDemoSim : Simulator :=
  (NewSimulator "sim" 50).RegisterFunctions
    [(NewFunction "a").WithTimeout 100, (NewFunction "b").WithTimeout 10]

/-! ### Arithmetic helpers -/

theorem tdivM_mul_le {a : Int} (h : 0 ≤ a) : a.tdiv 1000000 * 1000000 ≤ a := by
  rw [Int.tdiv_eq_ediv h (by norm_num)]
  exact Int.ediv_mul_le a (by norm_num)

theorem le_tdivM_mul {a : Int} (h : a ≤ 0) : a ≤ a.tdiv 1000000 * 1000000 := by
  have h2 := tdivM_mul_le (a := -a) (by omega)
  rw [Int.neg_tdiv] at h2
  omega

theorem tdivM_nonpos {a : Int} (h : a ≤ 0) : a.tdiv 1000000 ≤ 0 := by
  have h2 : 0 ≤ (-a).tdiv 1000000 := Int.tdiv_nonneg (by omega) (by norm_num)
  rw [Int.neg_tdiv] at h2
  omega

theorem mul_tdivM (m : Int) : (m * 1000000).tdiv 1000000 = m :=
  Int.mul_tdiv_cancel m (by norm_num)

theorem truncRat_intCast (n : Int) : truncRat (n : ℚ) = n := by
  unfold truncRat
  split
  · exact Int.floor_intCast n
  · rw [show (-(n : ℚ)) = ((-n : Int) : ℚ) by push_cast; ring, Int.floor_intCast]
    omega

theorem truncRat_of_nonneg {q : ℚ} (h : 0 ≤ q) : truncRat q = ⌊q⌋ :=
  if_pos h

/-- Resolving the parent cap: if the computed share `m` is between 0 and
the parent's remaining time, the child context's remaining time is
exactly `m`. -/
theorem getDeadline_min_of_le (b : Budget) (now m : Int) (hm0 : 0 ≤ m)
    (hmR : m ≤ getDeadline b now) :
    getDeadline ⟨min b.instant (now + m * 1000000)⟩ now = m := by
  unfold getDeadline at *
  rcases le_or_lt 0 (b.instant - now) with hd | hd
  · have h1 : (b.instant - now).tdiv 1000000 * 1000000 ≤ b.instant - now := tdivM_mul_le hd
    have h2 : m * 1000000 ≤ (b.instant - now).tdiv 1000000 * 1000000 := by
      exact mul_le_mul_of_nonneg_right hmR (by norm_num)
    rw [min_eq_right (by omega)]
    rw [show now + m * 1000000 - now = m * 1000000 by ring]
    exact mul_tdivM m
  · have hR : (b.instant - now).tdiv 1000000 ≤ 0 := tdivM_nonpos (by omega)
    have hm : m = 0 := by omega
    subst hm
    rw [min_eq_left (by omega)]
    show (b.instant - now).tdiv 1000000 = 0
    omega

/-- Resolving the parent cap for the escalated share: granting the whole
remaining time back produces exactly the parent's remaining time. -/
theorem getDeadline_min_self (b : Budget) (now : Int) :
    getDeadline ⟨min b.instant (now + getDeadline b now * 1000000)⟩ now = getDeadline b now := by
  unfold getDeadline
  rcases le_or_lt 0 (b.instant - now) with hd | hd
  · have h1 : (b.instant - now).tdiv 1000000 * 1000000 ≤ b.instant - now := tdivM_mul_le hd
    rw [min_eq_right (by omega)]
    rw [show now + (b.instant - now).tdiv 1000000 * 1000000 - now
          = (b.instant - now).tdiv 1000000 * 1000000 by ring]
    exact mul_tdivM _
  · have h1 : b.instant - now ≤ (b.instant - now).tdiv 1000000 * 1000000 := le_tdivM_mul (by omega)
    rw [min_eq_left (by omega)]


/-! ### Claims C1 to C3: budget derivation -/

/-- C1: for a priority weighted step, if the computed weighted share
`parentRemaining * weight` is below the 30 ms floor, the derived child
context grants the entire parent remaining time, not the weighted share
and not a clamp to 30 ms; and the escalation condition tests that
computed share, not the parent's remaining time, so a priority step
whose share is at least 30 ms receives only the share even when the
parent's remaining time is far larger. -/
theorem priority_escalation_share_vs_floor (b : Budget) (now : Int) (w : ℚ)
    (hw0 : 0 < w) (hw1 : w ≤ 1) :
    ((getDeadline b now : ℚ) * w < 30 →
      getDeadline (getNewContext b now w true) now = getDeadline b now) ∧
    (30 ≤ (getDeadline b now : ℚ) * w →
      getDeadline (getNewContext b now w true) now = truncRat ((getDeadline b now : ℚ) * w)) := by
  constructor
  · intro hlt
    simp only [getNewContext]
    rw [if_pos ⟨by exact_mod_cast hlt, trivial⟩, truncRat_intCast]
    exact getDeadline_min_self b now
  · intro hge
    have hq0 : (0 : ℚ) ≤ (getDeadline b now : ℚ) * w := le_trans (by norm_num) hge
    have hR0 : (0 : ℚ) ≤ (getDeadline b now : ℚ) := by
      by_contra hneg
      push_neg at hneg
      exact absurd hq0 (not_le.mpr (mul_neg_of_neg_of_pos hneg hw0))
    have hle : (getDeadline b now : ℚ) * w ≤ (getDeadline b now : ℚ) :=
      mul_le_of_le_one_right hR0 hw1
    simp only [getNewContext]
    rw [if_neg (fun h => absurd hge (not_le.mpr (by exact_mod_cast h.1)))]
    rw [truncRat_of_nonneg hq0]
    exact getDeadline_min_of_le b now _ (Int.floor_nonneg.mpr hq0)
      (by
        have := Int.floor_le_floor hle
        rwa [Int.floor_intCast] at this)

/-- C1 witness: with 40 ms remaining and weight 1/2 the share is 20 ms,
below the floor. -/
theorem priority_escalation_share_vs_floor_witness :
    (0 : ℚ) < 1 / 2 ∧ (1 / 2 : ℚ) ≤ 1 ∧
    (((getDeadline ⟨40000000⟩ 0 : ℚ) * (1 / 2) < 30 →
        getDeadline (getNewContext ⟨40000000⟩ 0 (1 / 2) true) 0 = getDeadline ⟨40000000⟩ 0) ∧
      (30 ≤ (getDeadline ⟨40000000⟩ 0 : ℚ) * (1 / 2) →
        getDeadline (getNewContext ⟨40000000⟩ 0 (1 / 2) true) 0
          = truncRat ((getDeadline ⟨40000000⟩ 0 : ℚ) * (1 / 2)))) :=
  ⟨by norm_num, by norm_num,
    priority_escalation_share_vs_floor ⟨40000000⟩ 0 (1 / 2) (by norm_num) (by norm_num)⟩

/-- C2: for a non-priority weighted step, any non-negative parent
remainder and any weight in the interval from 0 exclusive to 1, the
allotted child duration is the weighted share with fractional
milliseconds truncated toward zero, which for these non-negative values
is the floor. -/
theorem weighted_share_truncation (b : Budget) (now : Int) (w : ℚ)
    (hR : 0 ≤ getDeadline b now) (hw0 : 0 < w) (hw1 : w ≤ 1) :
    getDeadline (getNewContext b now w false) now = truncRat ((getDeadline b now : ℚ) * w) ∧
    truncRat ((getDeadline b now : ℚ) * w) = ⌊(getDeadline b now : ℚ) * w⌋ := by
  have hR0 : (0 : ℚ) ≤ (getDeadline b now : ℚ) := by exact_mod_cast hR
  have hq0 : (0 : ℚ) ≤ (getDeadline b now : ℚ) * w := mul_nonneg hR0 hw0.le
  have hle : (getDeadline b now : ℚ) * w ≤ (getDeadline b now : ℚ) :=
    mul_le_of_le_one_right hR0 hw1
  refine ⟨?_, truncRat_of_nonneg hq0⟩
  simp only [getNewContext]
  rw [if_neg (fun h => Bool.false_ne_true h.2)]
  rw [truncRat_of_nonneg hq0]
  exact getDeadline_min_of_le b now _ (Int.floor_nonneg.mpr hq0)
    (by
      have := Int.floor_le_floor hle
      rwa [Int.floor_intCast] at this)

/-- C2 witness: 600 ms remaining, weight 1/2. -/
theorem weighted_share_truncation_witness :
    0 ≤ getDeadline ⟨600000000⟩ 0 ∧ (0 : ℚ) < 1 / 2 ∧ (1 / 2 : ℚ) ≤ 1 ∧
    (getDeadline (getNewContext ⟨600000000⟩ 0 (1 / 2) false) 0
        = truncRat ((getDeadline ⟨600000000⟩ 0 : ℚ) * (1 / 2)) ∧
      truncRat ((getDeadline ⟨600000000⟩ 0 : ℚ) * (1 / 2))
        = ⌊(getDeadline ⟨600000000⟩ 0 : ℚ) * (1 / 2)⌋) :=
  ⟨by decide, by norm_num, by norm_num,
    weighted_share_truncation ⟨600000000⟩ 0 (1 / 2) (by decide) (by norm_num) (by norm_num)⟩

/-- C3: a derived child context's deadline instant is never later than
its parent's, for every weight and priority flag, including under
priority escalation. -/
theorem derived_budget_within_parent (b : Budget) (now : Int) (w : ℚ) (p : Bool) :
    (getNewContext b now w p).instant ≤ b.instant := by
  simp only [getNewContext]
  exact min_le_left _ _


/-! ### Claim C4: configuration validation -/

/-- C4 counterexample: the claim that malformed configuration is rejected
at configuration time is false. `NewSimulator` accepts a negative root
timeout and stores it unchanged, `WithDynamicContext` accepts a weight
above 1 and stores it unchanged — both constructors are total with no
failure path — and the accepted negative timeout later yields a negative
remaining budget. -/
theorem config_validation_counterexample :
    (NewSimulator "s" (-5)).timeout = -5 ∧
    (NewFunction "f").WithDynamicContext 2 false
      = Proc.withDynamicContext "f" 2 false false ∧
    getDeadline ⟨0 + (NewSimulator "s" (-5)).timeout * 1000000⟩ 0 = -5 :=
  ⟨rfl, rfl, by decide⟩

/-- C4 amended: malformed configuration is not rejected. `NewSimulator`
and the step builders are total functions that store whatever root
timeout and weight they are given, with no validation and no failure
value; a zero or negative root timeout or an out-of-range weight is
accepted silently. -/
theorem config_accepted_unvalidated (n : String) (t : Int) (f : Function) (w : ℚ)
    (p : Bool) (to2 : Int) :
    NewSimulator n t = { name := n, timeout := t, process := [] } ∧
    f.WithDynamicContext w p = Proc.withDynamicContext f.name w p f.isExecuted ∧
    f.WithTimeout to2 = Proc.withTimeout f.name to2 f.isExecuted :=
  ⟨rfl, rfl, rfl⟩


/-! ### Helper lemmas about processes and the worker -/

theorem runProc_executed (p : Proc) (b : Budget) (now : Int) :
    ((runProc p b now).proc).isExecuted = true := by
  cases p <;> rfl

theorem runProc_keeps_name (p : Proc) (b : Budget) (now : Int) :
    ((runProc p b now).proc).name = p.name := by
  cases p <;> rfl

theorem stepsAtInstant_map_name (ps : List Proc) (b : Budget) (now t : Int) :
    (stepsAtInstant ps b now t).map Proc.name = ps.map Proc.name := by
  induction ps generalizing now with
  | nil => rfl
  | cons p ps ih =>
      simp only [stepsAtInstant]
      split
      · simp [runProc_keeps_name, ih]
      · rfl

/-! ### Claim C5: the run race reports exactly one outcome -/

/-- C5: every run resolves the race between root-context expiry and the
worker's completion signal to exactly one terminal outcome: the expiry
branch exactly when the root deadline precedes the worker's finish
instant (or wins the simultaneous tie), the completion branch otherwise,
and never both. -/
theorem run_race_single_outcome (s : Simulator) (now : Int) (tieExpired : Bool) :
    (((s.Run now tieExpired).outcome.isExpired = true) ↔
      (now + s.timeout * 1000000 < (runWorker s.process ⟨now + s.timeout * 1000000⟩ now).now ∨
        ((runWorker s.process ⟨now + s.timeout * 1000000⟩ now).now = now + s.timeout * 1000000 ∧
          tieExpired = true))) ∧
    (((s.Run now tieExpired).outcome.isCompleted = true) ↔
      ¬(now + s.timeout * 1000000 < (runWorker s.process ⟨now + s.timeout * 1000000⟩ now).now ∨
        ((runWorker s.process ⟨now + s.timeout * 1000000⟩ now).now = now + s.timeout * 1000000 ∧
          tieExpired = true))) ∧
    (s.Run now tieExpired).outcome.isExpired = !(s.Run now tieExpired).outcome.isCompleted := by
  by_cases hc :
      now + s.timeout * 1000000 < (runWorker s.process ⟨now + s.timeout * 1000000⟩ now).now ∨
        ((runWorker s.process ⟨now + s.timeout * 1000000⟩ now).now = now + s.timeout * 1000000 ∧
          tieExpired = true)
  · simp [Simulator.Run, hc, Outcome.isExpired, Outcome.isCompleted]
  · simp [Simulator.Run, hc, Outcome.isExpired, Outcome.isCompleted]

/-! ### Claim C6: the expired report enumerates unexecuted steps -/

/-- C6: when a run ends in the expired outcome, the reported names are
exactly those of the processes whose executed flag is still false at the
instant the race resolved — every such process and no executed one — in
the original registration order (the in-flight process never completed,
so its flag is still its initial one). -/
theorem expired_lists_unexecuted (s : Simulator) (now : Int) (tieExpired : Bool)
    (names : List String)
    (h : (s.Run now tieExpired).outcome = .expired names) :
    names = ((stepsAtInstant s.process ⟨now + s.timeout * 1000000⟩ now
        (now + s.timeout * 1000000)).filter fun p => !p.isExecuted).map Proc.name ∧
    List.Sublist names (s.process.map Proc.name) ∧
    (∀ p ∈ stepsAtInstant s.process ⟨now + s.timeout * 1000000⟩ now
        (now + s.timeout * 1000000), p.isExecuted = false → p.name ∈ names) ∧
    (∀ n ∈ names, ∃ p ∈ stepsAtInstant s.process ⟨now + s.timeout * 1000000⟩ now
        (now + s.timeout * 1000000), p.isExecuted = false ∧ p.name = n) := by
  have hnames : names = ((stepsAtInstant s.process ⟨now + s.timeout * 1000000⟩ now
      (now + s.timeout * 1000000)).filter fun p => !p.isExecuted).map Proc.name := by
    by_cases hc :
        now + s.timeout * 1000000 < (runWorker s.process ⟨now + s.timeout * 1000000⟩ now).now ∨
          ((runWorker s.process ⟨now + s.timeout * 1000000⟩ now).now = now + s.timeout * 1000000 ∧
            tieExpired = true)
    · simp only [Simulator.Run, if_pos hc] at h
      exact (Outcome.expired.inj h).symm
    · simp only [Simulator.Run, if_neg hc] at h
      cases h
  refine ⟨hnames, ?_, ?_, ?_⟩
  · rw [hnames, ← stepsAtInstant_map_name s.process ⟨now + s.timeout * 1000000⟩ now
      (now + s.timeout * 1000000)]
    exact List.Sublist.map Proc.name (List.filter_sublist _)
  · intro p hp hflag
    rw [hnames]
    exact List.mem_map_of_mem Proc.name (List.mem_filter.mpr ⟨hp, by simp [hflag]⟩)
  · intro n hn
    rw [hnames] at hn
    rcases List.mem_map.mp hn with ⟨p, hp, rfl⟩
    rcases List.mem_filter.mp hp with ⟨hmem, hflag⟩
    exact ⟨p, hmem, by simpa using hflag, rfl⟩

/-- C6 witness: in the demo run the race resolves to expiry during the
first step, and both steps are reported unexecuted, in order. -/
theorem expired_lists_unexecuted_witness :
    (raceDemoSim.Run 0 false).outcome = .expired ["a", "b"] ∧
    (["a", "b"] = ((stepsAtInstant raceDemoSim.process ⟨0 + raceDemoSim.timeout * 1000000⟩ 0
        (0 + raceDemoSim.timeout * 1000000)).filter fun p => !p.isExecuted).map Proc.name ∧
      List.Sublist ["a", "b"] (raceDemoSim.process.map Proc.name) ∧
      (∀ p ∈ stepsAtInstant raceDemoSim.process ⟨0 + raceDemoSim.timeout * 1000000⟩ 0
          (0 + raceDemoSim.timeout * 1000000), p.isExecuted = false → p.name ∈ ["a", "b"]) ∧
      (∀ n ∈ ["a", "b"], ∃ p ∈ stepsAtInstant raceDemoSim.process
          ⟨0 + raceDemoSim.timeout * 1000000⟩ 0 (0 + raceDemoSim.timeout * 1000000),
          p.isExecuted = false ∧ p.name = n)) :=
  ⟨by decide, expired_lists_unexecuted raceDemoSim 0 false ["a", "b"] (by decide)⟩


/-! ### Claim C7: fixed-timeout steps ignore the parent budget -/

/-- C7: a fixed-timeout step occupies exactly its literal timeout in
wall-clock time for every parent context — the parent budget is never
consulted and nothing is clamped, even when the timeout exceeds the
parent's remaining time — then marks itself executed and reports the
pair of its timeout and the parent's remaining milliseconds at
completion; the run is total, with no failure path. -/
theorem fixed_step_ignores_parent (n : String) (t : Int) (ex : Bool) (b : Budget)
    (now : Int) (h : 0 ≤ t) :
    runProc (.withTimeout n t ex) b now =
      { proc := .withTimeout n t true
        now := now + t * 1000000
        row := { name := n, timeout := t
                 remaining := getDeadline b (now + t * 1000000) } } := by
  simp only [runProc]
  rw [max_eq_left (mul_nonneg h (by norm_num))]

/-- C7 witness: a 100 ms fixed step under a parent with only 50 ms left
still occupies the full 100 ms and completes. -/
theorem fixed_step_ignores_parent_witness :
    (0 : Int) ≤ 100 ∧
    runProc (.withTimeout "f" 100 false) ⟨50000000⟩ 0 =
      { proc := .withTimeout "f" 100 true
        now := 0 + 100 * 1000000
        row := { name := "f", timeout := 100
                 remaining := getDeadline ⟨50000000⟩ (0 + 100 * 1000000) } } :=
  ⟨by decide, fixed_step_ignores_parent "f" 100 false ⟨50000000⟩ 0 (by decide)⟩

/-! ### Claim C8: weighted steps with an exhausted child budget -/

/-- C8: a weighted step whose derived child context has zero or negative
remaining milliseconds still completes: it advances the clock by nothing
(a non-positive sleep returns immediately), still marks itself executed,
and still records the zero-or-negative allotted value in its report
row. -/
theorem exhausted_weighted_step_completes (n : String) (w : ℚ) (pr ex : Bool)
    (b : Budget) (now : Int)
    (h : getDeadline (getNewContext b now w pr) now ≤ 0) :
    runProc (.withDynamicContext n w pr ex) b now =
      { proc := .withDynamicContext n w pr true
        now := now
        row := { name := n, timeout := getDeadline (getNewContext b now w pr) now
                 remaining := getDeadline b now } } := by
  simp only [runProc]
  rw [max_eq_right (by omega), add_zero]

/-- C8 witness: a parent context already 1 ms past its deadline yields a
child with negative remaining time; the step still completes at once. -/
theorem exhausted_weighted_step_completes_witness :
    getDeadline (getNewContext ⟨-1000000⟩ 0 1 false) 0 ≤ 0 ∧
    runProc (.withDynamicContext "g" 1 false false) ⟨-1000000⟩ 0 =
      { proc := .withDynamicContext "g" 1 false true
        now := 0
        row := { name := "g", timeout := getDeadline (getNewContext ⟨-1000000⟩ 0 1 false) 0
                 remaining := getDeadline ⟨-1000000⟩ 0 } } := by
  have e1 : getNewContext ⟨-1000000⟩ 0 1 false = ⟨-1000000⟩ := by
    simp only [getNewContext]
    rw [if_neg (fun hx => Bool.false_ne_true hx.2), mul_one, truncRat_intCast]
    decide
  have hh : getDeadline (getNewContext ⟨-1000000⟩ 0 1 false) 0 ≤ 0 := by
    rw [e1]; decide
  exact ⟨hh, exhausted_weighted_step_completes "g" 1 false false ⟨-1000000⟩ 0 hh⟩

/-! ### Claim C9: reconfiguration carries nothing over -/

/-- C9: registering functions replaces the simulator's process list with
exactly the supplied ordered list — no accumulation across calls — and
leaves the name and root timeout unchanged; a run after reconfiguration
behaves identically to a run of a freshly constructed simulator with the
same name and timeout, so nothing from a previous run's state leaks in. -/
theorem register_replaces_process (s : Simulator) (ps : List Proc) (now : Int)
    (tieExpired : Bool) :
    (s.RegisterFunctions ps).process = ps ∧
    (s.RegisterFunctions ps).name = s.name ∧
    (s.RegisterFunctions ps).timeout = s.timeout ∧
    (s.RegisterFunctions ps).Run now tieExpired
      = ((NewSimulator s.name s.timeout).RegisterFunctions ps).Run now tieExpired :=
  ⟨rfl, rfl, rfl, rfl⟩

/-! ### Claim C10: executed-flag lifecycle -/

theorem runWorker_all_executed (ps : List Proc) (b : Budget) (now : Int) :
    ((runWorker ps b now).procs).all Proc.isExecuted = true := by
  induction ps generalizing now with
  | nil => rfl
  | cons p ps ih =>
      simp only [runWorker, List.all_cons]
      rw [runProc_executed, ih]
      rfl

theorem zip_self_flag_all (l : List Proc) :
    ((l.zip l).all fun pq => !pq.1.isExecuted || pq.2.isExecuted) = true := by
  induction l with
  | nil => rfl
  | cons p ps ih =>
      simp only [List.zip_cons_cons, List.all_cons, ih, Bool.and_true]
      cases p.isExecuted <;> rfl

theorem stepsAtInstant_flag_monotone (ps : List Proc) (b : Budget) (now t : Int) :
    ((ps.zip (stepsAtInstant ps b now t)).all
      fun pq => !pq.1.isExecuted || pq.2.isExecuted) = true := by
  induction ps generalizing now with
  | nil => rfl
  | cons p ps ih =>
      simp only [stepsAtInstant]
      split
      · simp only [List.zip_cons_cons, List.all_cons, ih, Bool.and_true]
        rw [runProc_executed]
        cases p.isExecuted <;> rfl
      · exact zip_self_flag_all (p :: ps)

/-- C10: every step built by `NewFunction` with either builder starts
unexecuted; the builders copy the `Function` receiver by value, so the
built step's flag equals the receiver's at build time and two steps
built from the same `Function` value share no state afterwards; running
a step is the only operation that writes the flag, always setting it to
true at completion; and no operation of the package (running a step, the
worker loop, or observing the list mid-run) ever resets a true flag to
false — so a step value reused in a later run still reports executed. -/
theorem executed_flag_lifecycle :
    (∀ n : String, (NewFunction n).isExecuted = false) ∧
    (∀ (n : String) (t : Int), ((NewFunction n).WithTimeout t).isExecuted = false) ∧
    (∀ (n : String) (w : ℚ) (pr : Bool),
      ((NewFunction n).WithDynamicContext w pr).isExecuted = false) ∧
    (∀ (f : Function) (t : Int), (f.WithTimeout t).isExecuted = f.isExecuted) ∧
    (∀ (f : Function) (w : ℚ) (pr : Bool),
      (f.WithDynamicContext w pr).isExecuted = f.isExecuted) ∧
    (∀ (p : Proc) (b : Budget) (now : Int), ((runProc p b now).proc).isExecuted = true) ∧
    (∀ (ps : List Proc) (b : Budget) (now : Int),
      ((runWorker ps b now).procs).all Proc.isExecuted = true) ∧
    (∀ (ps : List Proc) (b : Budget) (now t : Int),
      ((ps.zip (stepsAtInstant ps b now t)).all
        fun pq => !pq.1.isExecuted || pq.2.isExecuted) = true) :=
  ⟨fun _ => rfl, fun _ _ => rfl, fun _ _ _ => rfl, fun _ _ => rfl, fun _ _ _ => rfl,
    runProc_executed, runWorker_all_executed, stepsAtInstant_flag_monotone⟩

end T0Simulator
